import Mathlib

/-!
Verification of the Lp/Minkowski distance module (`src/lp.rs`).

A point is any value implementing the `Coordinates` trait: it reports a
dimensionality `dims` and a scalar component `coord i` for each axis index.
The scalar type is the `Real` numeric capability (absolute value, `powf`,
`recip`), modelled by Lean real numbers with `Real.rpow` for `powf`.
-/

/-- A value of the `Coordinates` trait: dimensionality plus per-axis
real components, as exposed by `dims()` and `coord(i)`. -/
structure Coordinates where
  dims : ℕ
  coord : ℕ → ℝ

/-- State of the accumulator `sum` in `lp_distance` after the loop has
run iterations `i = 0, 1, ..., n-1` in ascending order:
`sum += (x.coord(i) - y.coord(i)).abs().powf(p)`. -/
noncomputable def lpSum (p : ℝ) (x y : Coordinates) : ℕ → ℝ
  | 0 => 0
  | n + 1 => lpSum p x y n + |x.coord n - y.coord n| ^ p

/-- `lp_distance(p, x, y)` from `src/lp.rs` lines 43-57: the loop runs
`i in 0..x.dims()`, then the result is `sum.powf(p.recip())`. -/
noncomputable def lp_distance (p : ℝ) (x y : Coordinates) : ℝ :=
  lpSum p x y x.dims ^ p⁻¹

/-- Modelled from the spec: `l1_distance` re-exports
`crate::taxi::taxicab_distance`, whose source is not under `src/`; the
spec (glossary, section 4.2) defines the taxicab distance as the sum of
absolute per-dimension differences. `l1Sum` is that sum over the first
`n` axes, accumulated in ascending index order. -/
noncomputable def l1Sum (x y : Coordinates) : ℕ → ℝ
  | 0 => 0
  | n + 1 => l1Sum x y n + |x.coord n - y.coord n|

/-- Modelled from the spec: the dedicated L1 (taxicab) computation,
the sum of absolute per-dimension differences. -/
noncomputable def l1_distance (x y : Coordinates) : ℝ :=
  l1Sum x y x.dims

/-- The debug-build behaviour of `lp_distance`: the single runtime check
is `debug_assert!(x.dims() == y.dims())` (line 49), which halts
abnormally (`none`) when the dimensionalities differ and otherwise lets
the computation return its value. No check of `p` is performed. -/
noncomputable def lp_distance_debug (p : ℝ) (x y : Coordinates) : Option ℝ :=
  if x.dims = y.dims then some (lp_distance p x y) else none

/-- A reference `&'a T`, as a wrapper type distinct from `T` itself. -/
structure Ref (α : Type) : Type where
  deref : α

/-- A point in L1 space: `crate::taxi::Taxicab` is a newtype wrapper
around a coordinate-bearing value (re-exported as `L1`). -/
structure Taxicab where
  point : Coordinates

/-- Derivability of the `Minkowski` marker trait, one constructor per
`impl` rule: `ref` is the blanket implementation
`impl<K: Minkowski<V>, V> Minkowski<&V> for &K` (line 65); `taxi` is
modelled from the spec: the specialized L1 metric (external
`crate::taxi`, not under `src/`) carries the Minkowski classification. -/
inductive MinkowskiImpl : Type → Type → Prop where
  | taxi : MinkowskiImpl Taxicab Taxicab
  | ref {K V : Type} : MinkowskiImpl K V → MinkowskiImpl (Ref K) (Ref V)

/-- Concrete 2-dimensional point `(0, 0)`. -/
noncomputable def pZero : Coordinates :=
  ⟨2, fun _ => 0⟩

/-- Concrete 2-dimensional point `(3, 4)`. -/
noncomputable def pThreeFour : Coordinates :=
  ⟨2, fun i => if i = 0 then 3 else 4⟩

/-- Concrete 0-dimensional point. -/
noncomputable def pEmpty : Coordinates :=
  ⟨0, fun _ => 0⟩

/-- The loop accumulator equals the big-operator sum of the first `n`
terms. -/
theorem lpSum_eq_sum (p : ℝ) (x y : Coordinates) (n : ℕ) :
    lpSum p x y n = ∑ i ∈ Finset.range n, |x.coord i - y.coord i| ^ p := by
  induction n with
  | zero => simp [lpSum]
  | succ n ih => rw [lpSum, ih, Finset.sum_range_succ]

/-- Every term of the accumulator is nonnegative, so the accumulator is. -/
theorem lpSum_nonneg (p : ℝ) (x y : Coordinates) (n : ℕ) :
    0 ≤ lpSum p x y n := by
  induction n with
  | zero => simp [lpSum]
  | succ n ih =>
    rw [lpSum]
    exact add_nonneg ih (Real.rpow_nonneg (abs_nonneg _) p)

/-- C1: for equal-dimensioned points, `lp_distance(p, x, y)` returns
the sum over `i` from `0` up to the shared dimensionality of
`|x[i] - y[i]|^p`, raised to the power `1/p`; the accumulation in
`lpSum` proceeds in ascending index order from zero. -/
theorem lp_distance_eq_formula (p : ℝ) (x y : Coordinates)
    (hd : x.dims = y.dims) :
    lp_distance p x y =
      (∑ i ∈ Finset.range x.dims, |x.coord i - y.coord i| ^ p) ^ (1 / p) := by
  rw [lp_distance, lpSum_eq_sum, one_div]

/-- C1 witness at `p = 3`, `x = (0,0)`, `y = (3,4)`. -/
theorem lp_distance_eq_formula_witness :
    pZero.dims = pThreeFour.dims ∧
      lp_distance 3 pZero pThreeFour =
        (∑ i ∈ Finset.range pZero.dims,
          |pZero.coord i - pThreeFour.coord i| ^ (3 : ℝ)) ^ ((1 : ℝ) / 3) :=
  ⟨rfl, lp_distance_eq_formula 3 pZero pThreeFour rfl⟩

/-- C2: for equal-dimensioned points and `p ≥ 1`, the distance is
nonnegative. -/
theorem lp_distance_nonneg (p : ℝ) (x y : Coordinates)
    (hp : 1 ≤ p) (hd : x.dims = y.dims) :
    0 ≤ lp_distance p x y :=
  Real.rpow_nonneg (lpSum_nonneg p x y x.dims) p⁻¹

/-- C2 witness at `p = 1`, `x = (0,0)`, `y = (3,4)`. -/
theorem lp_distance_nonneg_witness :
    (1 : ℝ) ≤ 1 ∧ pZero.dims = pThreeFour.dims ∧
      0 ≤ lp_distance 1 pZero pThreeFour :=
  ⟨le_refl 1, rfl, lp_distance_nonneg 1 pZero pThreeFour (le_refl 1) rfl⟩

/-- Each loop term `|a - b|^p` vanishes exactly when the coordinates
agree, for a nonzero exponent. -/
theorem term_rpow_eq_zero_iff (p : ℝ) (hp : p ≠ 0) (a b : ℝ) :
    |a - b| ^ p = 0 ↔ a = b := by
  rw [Real.rpow_eq_zero_iff_of_nonneg (abs_nonneg _), abs_eq_zero,
    sub_eq_zero]
  exact ⟨fun h => h.1, fun h => ⟨h, hp⟩⟩

/-- C3: for equal-dimensioned points and `p ≥ 1`, the distance is `0`
iff every per-dimension component agrees; in particular
`lp_distance(p, x, x) = 0`. -/
theorem lp_distance_eq_zero_iff (p : ℝ) (x y : Coordinates)
    (hp : 1 ≤ p) (hd : x.dims = y.dims) :
    (lp_distance p x y = 0 ↔ ∀ i < x.dims, x.coord i = y.coord i) ∧
      lp_distance p x x = 0 := by
  have hp0 : p ≠ 0 := ne_of_gt (lt_of_lt_of_le zero_lt_one hp)
  constructor
  · rw [lp_distance,
      Real.rpow_eq_zero_iff_of_nonneg (lpSum_nonneg p x y x.dims),
      lpSum_eq_sum,
      Finset.sum_eq_zero_iff_of_nonneg
        (fun i _ => Real.rpow_nonneg (abs_nonneg _) p)]
    constructor
    · intro h i hi
      exact (term_rpow_eq_zero_iff p hp0 _ _).mp
        (h.1 i (Finset.mem_range.mpr hi))
    · intro h
      exact ⟨fun i hi => (term_rpow_eq_zero_iff p hp0 _ _).mpr
        (h i (Finset.mem_range.mp hi)), inv_ne_zero hp0⟩
  · rw [lp_distance, lpSum_eq_sum]
    have hz : ∀ i ∈ Finset.range x.dims,
        |x.coord i - x.coord i| ^ p = 0 := by
      intro i _
      rw [sub_self, abs_zero, Real.zero_rpow hp0]
    rw [Finset.sum_eq_zero hz, Real.zero_rpow (inv_ne_zero hp0)]

/-- C3 witness at `p = 1`, `x = (0,0)`, `y = (3,4)`. -/
theorem lp_distance_eq_zero_iff_witness :
    (1 : ℝ) ≤ 1 ∧ pZero.dims = pThreeFour.dims ∧
      ((lp_distance 1 pZero pThreeFour = 0 ↔
          ∀ i < pZero.dims, pZero.coord i = pThreeFour.coord i) ∧
        lp_distance 1 pZero pZero = 0) :=
  ⟨le_refl 1, rfl, lp_distance_eq_zero_iff 1 pZero pThreeFour (le_refl 1) rfl⟩

/-- The loop accumulator is symmetric in the two points, since
`|a - b| = |b - a|`. -/
theorem lpSum_symm (p : ℝ) (x y : Coordinates) (n : ℕ) :
    lpSum p x y n = lpSum p y x n := by
  induction n with
  | zero => rfl
  | succ n ih => rw [lpSum, lpSum, ih, abs_sub_comm]

/-- C4: for equal-dimensioned points the distance is symmetric, for
every exponent `p`. -/
theorem lp_distance_symm (p : ℝ) (x y : Coordinates)
    (hd : x.dims = y.dims) :
    lp_distance p x y = lp_distance p y x := by
  rw [lp_distance, lp_distance, lpSum_symm, hd]

/-- C4 witness at `p = 3`, `x = (0,0)`, `y = (3,4)`. -/
theorem lp_distance_symm_witness :
    pZero.dims = pThreeFour.dims ∧
      lp_distance 3 pZero pThreeFour = lp_distance 3 pThreeFour pZero :=
  ⟨rfl, lp_distance_symm 3 pZero pThreeFour rfl⟩

/-- At exponent `1` each loop term is the plain absolute difference. -/
theorem lpSum_one (x y : Coordinates) (n : ℕ) :
    lpSum 1 x y n = l1Sum x y n := by
  induction n with
  | zero => rfl
  | succ n ih => rw [lpSum, l1Sum, ih, Real.rpow_one]

/-- C5: at `p = 1` the generalized computation agrees exactly with the
dedicated L1 (taxicab) computation. -/
theorem lp_distance_one_eq_l1 (x y : Coordinates)
    (hd : x.dims = y.dims) :
    lp_distance 1 x y = l1_distance x y := by
  rw [lp_distance, lpSum_one, inv_one, Real.rpow_one, l1_distance]

/-- C5 witness at `x = (0,0)`, `y = (3,4)`. -/
theorem lp_distance_one_eq_l1_witness :
    pZero.dims = pThreeFour.dims ∧
      lp_distance 1 pZero pThreeFour = l1_distance pZero pThreeFour :=
  ⟨rfl, lp_distance_one_eq_l1 pZero pThreeFour rfl⟩

/-- A real power with literal exponent `3` is the cube. -/
theorem rpow_three_eq (a : ℝ) : a ^ (3 : ℝ) = a ^ (3 : ℕ) := by
  rw [show (3 : ℝ) = ((3 : ℕ) : ℝ) by norm_num, Real.rpow_natCast]

/-- C6: the `p = 3` Minkowski distance of `(0,0)` and `(3,4)` is
strictly below `5.0`, the L2 result. -/
theorem lp_distance_three_lt_five :
    lp_distance 3 pZero pThreeFour < 5 := by
  have hsum : lpSum 3 pZero pThreeFour 2 = 91 := by
    simp only [lpSum, pZero, pThreeFour]
    norm_num [rpow_three_eq]
  have hdist : lp_distance 3 pZero pThreeFour = (91 : ℝ) ^ (3 : ℝ)⁻¹ := by
    rw [lp_distance]
    rw [show pZero.dims = 2 from rfl, hsum]
  have h5 : (5 : ℝ) = (125 : ℝ) ^ (3 : ℝ)⁻¹ := by
    rw [show (125 : ℝ) = 5 ^ (3 : ℕ) by norm_num,
      ← Real.rpow_natCast (5 : ℝ) 3,
      ← Real.rpow_mul (by norm_num : (0 : ℝ) ≤ 5)]
    norm_num
  rw [hdist, h5]
  exact Real.rpow_lt_rpow (by norm_num) (by norm_num) (by norm_num)

/-- C7: zero-dimensional points give the empty sum `0`, and
`0^(1/p) = 0` for `p > 0`: a defined result, not an error. -/
theorem lp_distance_zero_dims (p : ℝ) (x y : Coordinates)
    (hx : x.dims = 0) (hy : y.dims = 0) (hp : 0 < p) :
    lp_distance p x y = 0 := by
  rw [lp_distance, hx]
  show lpSum p x y 0 ^ p⁻¹ = 0
  rw [show lpSum p x y 0 = 0 from rfl,
    Real.zero_rpow (inv_ne_zero (ne_of_gt hp))]

/-- C7 witness at `p = 1` on the 0-dimensional point. -/
theorem lp_distance_zero_dims_witness :
    pEmpty.dims = 0 ∧ (0 : ℝ) < 1 ∧ lp_distance 1 pEmpty pEmpty = 0 :=
  ⟨rfl, zero_lt_one,
    lp_distance_zero_dims 1 pEmpty pEmpty rfl rfl zero_lt_one⟩

/-- C8: the only check in `lp_distance` is the debug-only assertion on
dimensionality: when the precondition `x.dims = y.dims` holds the
assertion never fires and the value is returned, for every `p`
(no validation of `p`); when it is violated the diagnostic build halts. -/
theorem lp_distance_debug_spec (p : ℝ) (x y : Coordinates) :
    (x.dims = y.dims →
        lp_distance_debug p x y = some (lp_distance p x y)) ∧
      (x.dims ≠ y.dims → lp_distance_debug p x y = none) := by
  constructor <;> intro h <;> simp [lp_distance_debug, h]

/-- C8 witness at `p = -1` (a non-positive exponent passes unchecked)
on equal-dimensioned points. -/
theorem lp_distance_debug_spec_witness :
    (pZero.dims = pThreeFour.dims →
        lp_distance_debug (-1) pZero pThreeFour =
          some (lp_distance (-1) pZero pThreeFour)) ∧
      (pZero.dims ≠ pThreeFour.dims →
        lp_distance_debug (-1) pZero pThreeFour = none) :=
  lp_distance_debug_spec (-1) pZero pThreeFour

/-- C9: the Minkowski marker capability is preserved under by-reference
access: whenever `K` carries it against `V`, `&K` carries it against
`&V`, via the blanket implementation. -/
theorem minkowski_ref_blanket (K V : Type) (h : MinkowskiImpl K V) :
    MinkowskiImpl (Ref K) (Ref V) :=
  MinkowskiImpl.ref h

/-- C9 witness: the L1 point type carries the marker, hence so do
references to it. -/
theorem minkowski_ref_blanket_witness :
    MinkowskiImpl Taxicab Taxicab ∧
      MinkowskiImpl (Ref Taxicab) (Ref Taxicab) :=
  ⟨MinkowskiImpl.taxi,
    minkowski_ref_blanket Taxicab Taxicab MinkowskiImpl.taxi⟩

/-- The loop reads only coordinates below `n`: points agreeing on axes
`0..n-1` give the same accumulator. -/
theorem lpSum_congr (p : ℝ) (x x' y y' : Coordinates) (n : ℕ)
    (hx : ∀ i < n, x'.coord i = x.coord i)
    (hy : ∀ i < n, y'.coord i = y.coord i) :
    lpSum p x' y' n = lpSum p x y n := by
  induction n with
  | zero => rfl
  | succ n ih =>
    rw [lpSum, lpSum,
      ih (fun i hi => hx i (Nat.lt_succ_of_lt hi))
        (fun i hi => hy i (Nat.lt_succ_of_lt hi)),
      hx n (Nat.lt_succ_self n), hy n (Nat.lt_succ_self n)]

/-- C10: the result depends only on `x.dims` and the coordinates
`0..x.dims-1` of each point (even when `y` has more dimensions), and
equals the Minkowski formula restricted to those first `x.dims` axes. -/
theorem lp_distance_reads_first_dims (p : ℝ) (x x' y y' : Coordinates)
    (hd : x'.dims = x.dims)
    (hx : ∀ i < x.dims, x'.coord i = x.coord i)
    (hy : ∀ i < x.dims, y'.coord i = y.coord i) :
    lp_distance p x' y' = lp_distance p x y ∧
      lp_distance p x y =
        (∑ i ∈ Finset.range x.dims,
          |x.coord i - y.coord i| ^ p) ^ p⁻¹ := by
  constructor
  · rw [lp_distance, lp_distance, hd, lpSum_congr p x x' y y' x.dims hx hy]
  · rw [lp_distance, lpSum_eq_sum]

/-- Concrete 3-dimensional point `(3, 4, 9)`: the first two coordinates
match `(3, 4)` and a third, extra coordinate is present. -/
noncomputable def pThreeFourNine : Coordinates :=
  ⟨3, fun i => if i = 0 then 3 else if i = 1 then 4 else 9⟩

/-- C10 witness: against the 2-dimensional `x = (0,0)`, the
3-dimensional `(3,4,9)` gives the same distance as `(3,4)`. -/
theorem lp_distance_reads_first_dims_witness :
    (∀ i < pZero.dims, pThreeFourNine.coord i = pThreeFour.coord i) ∧
      (lp_distance 3 pZero pThreeFourNine =
          lp_distance 3 pZero pThreeFour ∧
        lp_distance 3 pZero pThreeFour =
          (∑ i ∈ Finset.range pZero.dims,
            |pZero.coord i - pThreeFour.coord i| ^ (3 : ℝ)) ^
            (3 : ℝ)⁻¹) := by
  have h : ∀ i < pZero.dims, pThreeFourNine.coord i = pThreeFour.coord i := by
    intro i hi
    have hi2 : i < 2 := hi
    interval_cases i <;> rfl
  exact ⟨h, lp_distance_reads_first_dims 3 pZero pZero pThreeFour
    pThreeFourNine rfl (fun i _ => rfl) h⟩
